import Mathlib

/-!
Verification of the lecture-audio-cleaner audio pipeline.

This file gives a shallow embedding of the repository's core code:

* src/src/audio/task.py — the AudioTask dataclass together with its derived
  output_path and output_format properties (pathlib stem/suffix/parent
  semantics are modelled on lists of characters);
* src/src/audio/processor.py — AudioProcessor.process_audio,
  _apply_noise_reduction and _enhance_speech.  External libraries
  (librosa.load, noisereduce.reduce_noise, soundfile.write / pydub export)
  are modelled as an environment of fallible operations; the embedding
  records the exact arguments the code passes to them, the sequence of
  values handed to the progress callback, and the file writes performed;
* src/src/gui/main_window.py — ProcessingThread.run (the cancellation
  check) and MainWindow.add_task (the task registry update).

Samples are modelled as rational numbers, paths and other Python strings as
lists of characters.
-/

/-- Python strings and paths are modelled as lists of characters. -/
abbrev Str := List Char

/-- Scan a reversed file name for the first dot: on input r it returns
some (e, pre) when r = e ++ dot :: pre with e dot-free, and none when r has
no dot.  This models str.rfind applied by pathlib to the unreversed name. -/
def breakDot : Str → Option (Str × Str)
  | [] => none
  | c :: cs =>
    if c = '.' then some ([], cs)
    else
      match breakDot cs with
      | none => none
      | some (e, pre) => some (c :: e, pre)

/-- The final path component: the characters after the last slash
(pathlib PurePath.name for paths with no trailing slash). -/
def nameOf (p : Str) : Str := (p.reverse.takeWhile (fun c => c != '/')).reverse

/-- The leading directory part of a path, slash included: everything up to
and including the last slash (empty when the path has no slash). -/
def dirPre (p : Str) : Str := (p.reverse.dropWhile (fun c => c != '/')).reverse

/-- pathlib stem/suffix on a file name n: the suffix is the part from the
last dot on, unless that dot is the first or the last character of the
name, in which case the suffix is empty.  Returns (stem, suffix). -/
def splitExt (n : Str) : Str × Str :=
  match breakDot n.reverse with
  | none => (n, [])
  | some (e, pre) =>
    if e = [] ∨ pre = [] then (n, [])
    else (pre.reverse, '.' :: e.reverse)

/-- PurePath(p).stem of the source's pathlib usage. -/
def stemOf (p : Str) : Str := (splitExt (nameOf p)).1

/-- PurePath(p).suffix of the source's pathlib usage. -/
def suffixOf (p : Str) : Str := (splitExt (nameOf p)).2

/-- Noise reduction intensity levels (task.py, class NoiseReductionLevel). -/
inductive NoiseReductionLevel
  | light
  | medium
  | strong
deriving DecidableEq

/-- Speech enhancement intensity levels (task.py, class SpeechEnhancementLevel). -/
inductive SpeechEnhancementLevel
  | light
  | medium
  | strong
deriving DecidableEq

/-- Background noise suppression levels (task.py, class BackgroundNoiseLevel). -/
inductive BackgroundNoiseLevel
  | minimal
  | moderate
  | aggressive
deriving DecidableEq

/-- The AudioTask dataclass of task.py (its stored fields; output_path and
output_format are the derived properties below). -/
structure AudioTask where
  input_path : Str
  name : Str
  noise_reduction_level : NoiseReductionLevel
  enable_speech_enhancement : Bool
  speech_enhancement_level : SpeechEnhancementLevel
  voice_clarity_boost : Bool
  background_noise_level : BackgroundNoiseLevel
deriving DecidableEq

/-- Construction of an AudioTask without an explicit name, as done by
MainWindow.add_task: the dataclass post-init hook fills in the name with
the stem of the input path. -/
def mkTask (input_path : Str) (nr : NoiseReductionLevel) (enh : Bool)
    (sel : SpeechEnhancementLevel) (vcb : Bool) (bnl : BackgroundNoiseLevel) : AudioTask :=
  ⟨input_path, stemOf input_path, nr, enh, sel, vcb, bnl⟩

/-- The literal suffix the code appends to the stem of the input file. -/
def cleanedTag : Str := "_cleaned".toList

/-- task.py AudioTask.output_path on the input path: parent directory of
the input joined with stem plus the cleaned tag plus the unchanged suffix
(str of PurePath.parent slash the new name). -/
def output_path (p : Str) : Str := dirPre p ++ (stemOf p ++ cleanedTag ++ suffixOf p)

/-- Case folding of a Python string via str.lower, character by character. -/
def lowerStr (s : Str) : Str := s.map Char.toLower

/-- Association-list lookup with decidable key equality, modelling a Python
dict membership test plus indexing. -/
def lookupStr {α : Type} (k : Str) : List (Str × α) → Option α
  | [] => none
  | (k', v) :: rest => if k' = k then some v else lookupStr k rest

/-- The keys of an association list, in order. -/
def keysOf {α : Type} (m : List (Str × α)) : List Str := m.map Prod.fst

/-- task.py format_map: the fixed extension-to-format table. -/
def format_map : List (Str × Str) :=
  [(".wav".toList, "wav".toList),
   (".mp3".toList, "mp3".toList),
   (".m4a".toList, "m4a".toList),
   (".aac".toList, "aac".toList),
   (".ogg".toList, "ogg".toList),
   (".flac".toList, "flac".toList)]

/-- task.py AudioTask.output_format on the input path: look the lowercased
input suffix up in format_map, defaulting to wav for unsupported ones. -/
def output_format (p : Str) : Str :=
  match lookupStr (lowerStr (suffixOf p)) format_map with
  | some f => f
  | none => "wav".toList

/-- processor.py _apply_noise_reduction: the reduction strength chosen for
each noise reduction intensity. -/
def reductionStrength : NoiseReductionLevel → ℚ
  | NoiseReductionLevel.light => 0.5
  | NoiseReductionLevel.medium => 0.7
  | NoiseReductionLevel.strong => 0.9

/-- The full argument record _apply_noise_reduction passes to the external
noisereduce.reduce_noise call. -/
structure ReduceNoiseArgs where
  y : List ℚ
  sr : ℕ
  y_noise : List ℚ
  prop_decrease : ℚ
  stationary : Bool
  n_std_thresh_stationary : ℚ
deriving DecidableEq

/-- processor.py _apply_noise_reduction: looks up the strength for the
level, slices the first sr samples of the signal as the noise clip (the
Python slice y[:sr] stops at the end of a shorter signal), and calls
noisereduce.reduce_noise with stationary mode and threshold 1.5. -/
def noiseReduceArgs (y : List ℚ) (sr : ℕ) (level : NoiseReductionLevel) : ReduceNoiseArgs :=
  ⟨y, sr, y.take sr, reductionStrength level, true, 1.5⟩

/-- processor.py _enhance_speech: the placeholder enhancement stage, which
returns the signal unchanged. -/
def enhance_speech (y : List ℚ) (sr : ℕ) : List ℚ := y

/-- The two code paths of the save stage of process_audio: the mp3 branch
goes through an in-memory lossless WAV buffer and a pydub transcode, every
other format is written directly by soundfile.write. -/
inductive EncodeRoute
  | losslessIntermediate
  | rawWrite
deriving DecidableEq

/-- Which save branch process_audio takes, from the comparison
output_format.lower() == mp3 in processor.py. -/
def encodeRoute (fmt : Str) : EncodeRoute :=
  if lowerStr fmt = "mp3".toList then EncodeRoute.losslessIntermediate
  else EncodeRoute.rawWrite

/-- The argument record the save stage hands to the external writer:
target path, format, branch taken, samples and sample rate. -/
structure EncodeCall where
  path : Str
  fmt : Str
  route : EncodeRoute
  samples : List ℚ
  sr : ℕ

/-- The save-stage call process_audio makes for task t with final samples
y at rate sr. -/
def encodeCallOf (t : AudioTask) (y : List ℚ) (sr : ℕ) : EncodeCall :=
  ⟨output_path t.input_path, output_format t.input_path,
   encodeRoute (output_format t.input_path), y, sr⟩

/-- The external, fallible operations process_audio invokes: the result of
librosa.load on the task's input, of noisereduce.reduce_noise on the
arguments built by _apply_noise_reduction, and of the file write
(soundfile.write or pydub export). -/
structure PipelineEnv where
  loadRes : Except String (List ℚ × ℕ)
  reduce : ReduceNoiseArgs → Except String (List ℚ)
  write : EncodeCall → Except String Unit

/-- Observable outcome of one process_audio run: the returned boolean, the
values passed to the progress callback in order, the paths whose write
completed, and the direct-write targets whose write failed midway (where a
partially-written file may remain, since the write goes straight to the
final path). -/
structure RunResult where
  ok : Bool
  events : List ℕ
  writes : List Str
  partialAt : List Str
deriving DecidableEq

/-- processor.py AudioProcessor.process_audio with a progress callback
supplied: each stage runs under the outer try/except, so the first failing
stage aborts the run and the function returns false instead of raising;
progress checkpoints 10/30/(60 when enhancement is enabled)/80/100 are
emitted before their stages, 100 only after a successful save. -/
def process_audio (t : AudioTask) (env : PipelineEnv) : RunResult :=
  match env.loadRes with
  | Except.error _ => ⟨false, [10], [], []⟩
  | Except.ok (y, sr) =>
    match env.reduce (noiseReduceArgs y sr t.noise_reduction_level) with
    | Except.error _ => ⟨false, [10, 30], [], []⟩
    | Except.ok yClean =>
      if t.enable_speech_enhancement then
        match env.write (encodeCallOf t (enhance_speech yClean sr) sr) with
        | Except.error _ => ⟨false, [10, 30, 60, 80], [], [output_path t.input_path]⟩
        | Except.ok _ => ⟨true, [10, 30, 60, 80, 100], [output_path t.input_path], []⟩
      else
        match env.write (encodeCallOf t yClean sr) with
        | Except.error _ => ⟨false, [10, 30, 80], [], [output_path t.input_path]⟩
        | Except.ok _ => ⟨true, [10, 30, 80, 100], [output_path t.input_path], []⟩

/-- Whether some stage of process_audio raised for task t under env:
loading failed, or noise reduction failed, or the final write failed (the
placeholder enhancement stage cannot raise). -/
def someStageRaised (t : AudioTask) (env : PipelineEnv) : Bool :=
  match env.loadRes with
  | Except.error _ => true
  | Except.ok (y, sr) =>
    match env.reduce (noiseReduceArgs y sr t.noise_reduction_level) with
    | Except.error _ => true
    | Except.ok yClean =>
      if t.enable_speech_enhancement then
        match env.write (encodeCallOf t (enhance_speech yClean sr) sr) with
        | Except.error _ => true
        | Except.ok _ => false
      else
        match env.write (encodeCallOf t yClean sr) with
        | Except.error _ => true
        | Except.ok _ => false

/-- The sequence of filesystem operations the save stage performs for task
t: both branches are a single direct write to the derived output path (the
mp3 branch's WAV intermediate lives in an in-memory buffer, not a file);
no temporary file and no rename is ever used. -/
inductive FsOp
  | writeFile (path : Str)
  | renameFile (src dst : Str)
deriving DecidableEq

/-- The filesystem trace of the save stage of process_audio. -/
def encodeOps (t : AudioTask) : List FsOp :=
  match encodeRoute (output_format t.input_path) with
  | EncodeRoute.losslessIntermediate => [FsOp.writeFile (output_path t.input_path)]
  | EncodeRoute.rawWrite => [FsOp.writeFile (output_path t.input_path)]

/-- Whether a filesystem trace contains any rename. -/
def hasRename (ops : List FsOp) : Bool :=
  ops.any fun op =>
    match op with
    | FsOp.renameFile _ _ => true
    | _ => false

/-- main_window.py ProcessingThread.run: runs process_audio to completion,
then checks the is_running flag once; stopRequested models the flag having
been cleared by stop before that check.  Returns the pipeline run together
with the terminal task_completed payload. -/
def threadRun (t : AudioTask) (env : PipelineEnv) (stopRequested : Bool) :
    RunResult × (Bool × String) :=
  let r := process_audio t env
  if stopRequested then (r, (false, "Task cancelled"))
  else if r.ok then (r, (true, "Processing completed successfully"))
  else (r, (false, "Processing failed"))

/-- main_window.py MainWindow.add_task registry update: a plain Python
dict assignment keyed by the task name, replacing in place any existing
binding with that key and appending a fresh one otherwise. -/
def dictInsert {α : Type} (k : Str) (v : α) : List (Str × α) → List (Str × α)
  | [] => [(k, v)]
  | (k', v') :: rest =>
    if k' = k then (k, v) :: rest else (k', v') :: dictInsert k v rest

/-- main_window.py MainWindow.add_task: when the dialog supplies a
non-empty input path, build the task (its name derived from the input
stem) and store it in the tasks dict under its name. -/
def add_task (tasks : List (Str × AudioTask)) (input_path : Str)
    (nr : NoiseReductionLevel) (enh : Bool) (sel : SpeechEnhancementLevel)
    (vcb : Bool) (bnl : BackgroundNoiseLevel) : List (Str × AudioTask) :=
  if input_path = [] then tasks
  else dictInsert (mkTask input_path nr enh sel vcb bnl).name
    (mkTask input_path nr enh sel vcb bnl) tasks

/-- The lossy or compressed target containers named by the specification
that the raw writer does not natively support. -/
def lossyFormats : List Str :=
  ["mp3".toList, "m4a".toList, "aac".toList, "ogg".toList]

/-- Concrete task of the specification scenario: input lecture1.wav,
medium noise reduction, speech enhancement disabled. -/
def taskW : AudioTask :=
  mkTask "lecture1.wav".toList NoiseReductionLevel.medium false
    SpeechEnhancementLevel.medium true BackgroundNoiseLevel.moderate

/-- Concrete task with speech enhancement enabled. -/
def taskEnh : AudioTask :=
  mkTask "lecture1.wav".toList NoiseReductionLevel.medium true
    SpeechEnhancementLevel.medium true BackgroundNoiseLevel.moderate

/-- Environment in which every external operation succeeds. -/
def envOk : PipelineEnv :=
  ⟨Except.ok ([0], 1), fun _ => Except.ok [0], fun _ => Except.ok ()⟩

/-- Environment in which loading the input fails. -/
def envLoadFail : PipelineEnv :=
  ⟨Except.error "load failed", fun _ => Except.ok [0], fun _ => Except.ok ()⟩

/-- Environment in which the final file write fails. -/
def envWriteFail : PipelineEnv :=
  ⟨Except.ok ([0], 1), fun _ => Except.ok [0], fun _ => Except.error "write failed"⟩

/-- A task on input a.wav with light noise reduction. -/
def taskALight : AudioTask :=
  mkTask "a.wav".toList NoiseReductionLevel.light true
    SpeechEnhancementLevel.medium true BackgroundNoiseLevel.moderate

/-- A second task on the same input a.wav, with strong noise reduction. -/
def taskAStrong : AudioTask :=
  mkTask "a.wav".toList NoiseReductionLevel.strong true
    SpeechEnhancementLevel.medium true BackgroundNoiseLevel.moderate

/-- A registry already holding the a.wav task under its derived name. -/
def tasksDup : List (Str × AudioTask) := [(taskALight.name, taskALight)]

theorem takeWhile_append_all {α : Type} (q : α → Bool) (a b : List α)
    (h : ∀ c ∈ a, q c = true) : (a ++ b).takeWhile q = a ++ b.takeWhile q := by
  induction a with
  | nil => simp
  | cons x xs ih =>
    simp only [List.cons_append, List.takeWhile_cons, h x (by simp), if_true]
    rw [ih (fun c hc => h c (by simp [hc]))]

theorem dropWhile_append_all {α : Type} (q : α → Bool) (a b : List α)
    (h : ∀ c ∈ a, q c = true) : (a ++ b).dropWhile q = b.dropWhile q := by
  induction a with
  | nil => simp
  | cons x xs ih =>
    simp only [List.cons_append, List.dropWhile_cons, h x (by simp), if_true]
    exact ih (fun c hc => h c (by simp [hc]))

theorem dropWhile_head_false {α : Type} (q : α → Bool) (l : List α) (c : α) (cs : List α)
    (h : l.dropWhile q = c :: cs) : q c = false := by
  induction l with
  | nil => simp at h
  | cons x xs ih =>
    rw [List.dropWhile_cons] at h
    by_cases hx : q x = true
    · exact ih (by simpa [hx] using h)
    · simp only [hx, if_false] at h
      simp only [Bool.not_eq_true] at hx
      cases h
      exact hx

theorem takeWhile_dropWhile_nil {α : Type} (q : α → Bool) (l : List α) :
    (l.dropWhile q).takeWhile q = [] := by
  cases h : l.dropWhile q with
  | nil => simp
  | cons c cs => simp [List.takeWhile_cons, dropWhile_head_false q l c cs h]

theorem dropWhile_idem {α : Type} (q : α → Bool) (l : List α) :
    (l.dropWhile q).dropWhile q = l.dropWhile q := by
  cases h : l.dropWhile q with
  | nil => simp
  | cons c cs => simp [List.dropWhile_cons, dropWhile_head_false q l c cs h]

theorem dirPre_append_nameOf (p : Str) : dirPre p ++ nameOf p = p := by
  unfold dirPre nameOf
  rw [← List.reverse_append, List.takeWhile_append_dropWhile, List.reverse_reverse]

theorem mem_nameOf_ne_slash (p : Str) (c : Char) (hc : c ∈ nameOf p) : c ≠ '/' := by
  unfold nameOf at hc
  rw [List.mem_reverse] at hc
  have := List.mem_takeWhile_imp hc
  simpa using this

theorem breakDot_eq (r e pre : Str) (h : breakDot r = some (e, pre)) :
    r = e ++ '.' :: pre := by
  induction r generalizing e pre with
  | nil => simp [breakDot] at h
  | cons c cs ih =>
    rw [breakDot] at h
    by_cases hc : c = '.'
    · simp only [hc, if_true, Option.some.injEq, Prod.mk.injEq] at h
      rw [← h.1, ← h.2, hc]
      rfl
    · simp only [hc, if_false] at h
      cases hcs : breakDot cs with
      | none => rw [hcs] at h; simp at h
      | some ep =>
        obtain ⟨e', pre'⟩ := ep
        rw [hcs] at h
        simp only [Option.some.injEq, Prod.mk.injEq] at h
        rw [← h.1, ← h.2]
        simpa using ih e' pre' hcs

theorem breakDot_no_dot (r e pre : Str) (h : breakDot r = some (e, pre)) :
    '.' ∉ e := by
  induction r generalizing e pre with
  | nil => simp [breakDot] at h
  | cons c cs ih =>
    rw [breakDot] at h
    by_cases hc : c = '.'
    · simp only [hc, if_true, Option.some.injEq, Prod.mk.injEq] at h
      rw [← h.1]
      simp
    · simp only [hc, if_false] at h
      cases hcs : breakDot cs with
      | none => rw [hcs] at h; simp at h
      | some ep =>
        obtain ⟨e', pre'⟩ := ep
        rw [hcs] at h
        simp only [Option.some.injEq, Prod.mk.injEq] at h
        rw [← h.1]
        intro hmem
        rcases List.mem_cons.mp hmem with h1 | h1
        · exact hc h1.symm
        · exact ih e' pre' hcs h1

theorem breakDot_append (a b : Str) (h : '.' ∉ a) :
    breakDot (a ++ '.' :: b) = some (a, b) := by
  induction a with
  | nil => simp [breakDot]
  | cons c cs ih =>
    have hc : ¬ c = '.' := fun hc => h (by simp [hc])
    rw [List.cons_append, breakDot]
    simp only [hc, if_false]
    rw [ih (fun hm => h (by simp [hm]))]

theorem splitExt_append (n : Str) : (splitExt n).1 ++ (splitExt n).2 = n := by
  unfold splitExt
  cases h : breakDot n.reverse with
  | none => simp
  | some ep =>
    obtain ⟨e, pre⟩ := ep
    by_cases he : e = [] ∨ pre = []
    · simp [he]
    · simp only [he, if_false]
      have hr : n.reverse = e ++ '.' :: pre := breakDot_eq _ _ _ h
      have : n = (e ++ '.' :: pre).reverse := by
        rw [← hr, List.reverse_reverse]
      rw [this]
      simp [List.reverse_append, List.reverse_cons, List.append_assoc]

theorem stem_append_suffix (p : Str) : stemOf p ++ suffixOf p = nameOf p :=
  splitExt_append (nameOf p)

theorem newName_no_slash (p : Str) (c : Char)
    (hc : c ∈ stemOf p ++ cleanedTag ++ suffixOf p) : c ≠ '/' := by
  have htag : ∀ x ∈ cleanedTag, x ≠ '/' := by decide
  rcases List.mem_append.mp hc with h1 | h1
  · rcases List.mem_append.mp h1 with h2 | h2
    · exact mem_nameOf_ne_slash p c
        (by rw [← stem_append_suffix]; exact List.mem_append.mpr (Or.inl h2))
    · exact htag c h2
  · exact mem_nameOf_ne_slash p c
      (by rw [← stem_append_suffix]; exact List.mem_append.mpr (Or.inr h1))

theorem nameOf_output (p : Str) :
    nameOf (output_path p) = stemOf p ++ cleanedTag ++ suffixOf p := by
  unfold output_path nameOf dirPre
  rw [List.reverse_append, List.reverse_reverse]
  rw [takeWhile_append_all _ _ _
    (fun c hc => by simpa using newName_no_slash p c (List.mem_reverse.mp hc))]
  rw [takeWhile_dropWhile_nil]
  simp

theorem dirPre_output (p : Str) : dirPre (output_path p) = dirPre p := by
  unfold output_path dirPre
  rw [List.reverse_append, List.reverse_reverse]
  rw [dropWhile_append_all _ _ _
    (fun c hc => by simpa using newName_no_slash p c (List.mem_reverse.mp hc))]
  rw [dropWhile_idem]

theorem output_path_ne (p : Str) : output_path p ≠ p := by
  intro h
  have h1 : nameOf (output_path p) = nameOf p := by rw [h]
  rw [nameOf_output] at h1
  have h2 := congrArg List.length h1
  have h3 := congrArg List.length (stem_append_suffix p)
  simp only [List.length_append] at h2 h3
  have h4 : cleanedTag.length = 8 := by decide
  omega

theorem splitExt_of_breakDot (n e pre : Str) (h : breakDot n.reverse = some (e, pre))
    (hne : ¬ (e = [] ∨ pre = [])) :
    splitExt n = (pre.reverse, '.' :: e.reverse) := by
  unfold splitExt
  rw [h]
  show (if e = [] ∨ pre = [] then (n, []) else (pre.reverse, '.' :: e.reverse))
      = (pre.reverse, '.' :: e.reverse)
  rw [if_neg hne]

theorem splitExt_of_breakDot_none (n : Str) (h : breakDot n.reverse = none) :
    splitExt n = (n, []) := by
  unfold splitExt
  rw [h]

theorem splitExt_of_breakDot_deg (n e pre : Str) (h : breakDot n.reverse = some (e, pre))
    (hd : e = [] ∨ pre = []) : splitExt n = (n, []) := by
  unfold splitExt
  rw [h]
  show (if e = [] ∨ pre = [] then (n, []) else (pre.reverse, '.' :: e.reverse)) = (n, [])
  rw [if_pos hd]

theorem suffix_stem_output (p : Str) (hs : suffixOf p ≠ []) :
    suffixOf (output_path p) = suffixOf p ∧
    stemOf (output_path p) = stemOf p ++ cleanedTag := by
  cases h : breakDot (nameOf p).reverse with
  | none =>
    exact absurd (by unfold suffixOf; rw [splitExt_of_breakDot_none _ h]) hs
  | some ep =>
    obtain ⟨e, pre⟩ := ep
    by_cases hd : e = [] ∨ pre = []
    · exact absurd (by unfold suffixOf; rw [splitExt_of_breakDot_deg _ _ _ h hd]) hs
    · have hsp := splitExt_of_breakDot _ _ _ h hd
      have hsfx : suffixOf p = '.' :: e.reverse := by unfold suffixOf; rw [hsp]
      have hst : stemOf p = pre.reverse := by unfold stemOf; rw [hsp]
      have hdot : '.' ∉ e := breakDot_no_dot _ _ _ h
      push_neg at hd
      have hrev : (stemOf p ++ cleanedTag ++ suffixOf p).reverse
          = e ++ '.' :: (cleanedTag.reverse ++ pre) := by
        rw [hst, hsfx]
        simp [List.reverse_append, List.append_assoc]
      have hbd2 : breakDot (nameOf (output_path p)).reverse
          = some (e, cleanedTag.reverse ++ pre) := by
        rw [nameOf_output, hrev]
        exact breakDot_append _ _ hdot
      have hd2 : ¬ (e = [] ∨ (cleanedTag.reverse ++ pre) = []) := by
        push_neg
        refine ⟨hd.1, fun hx => ?_⟩
        exact absurd (List.append_eq_nil.mp hx).1 (by decide)
      have hsp2 := splitExt_of_breakDot _ _ _ hbd2 hd2
      constructor
      · show (splitExt (nameOf (output_path p))).2 = suffixOf p
        rw [hsp2, hsfx]
      · show (splitExt (nameOf (output_path p))).1 = stemOf p ++ cleanedTag
        rw [hsp2, hst]
        simp [List.reverse_append]

theorem lookupStr_none {α : Type} (k : Str) (m : List (Str × α)) (h : k ∉ keysOf m) :
    lookupStr k m = none := by
  induction m with
  | nil => rfl
  | cons kv rest ih =>
    obtain ⟨k', v⟩ := kv
    have h2 : ¬ (k = k' ∨ k ∈ keysOf rest) := by
      intro hor
      refine h ?_
      show k ∈ k' :: keysOf rest
      rcases hor with h3 | h3
      · exact h3 ▸ List.mem_cons_self _ _
      · exact List.mem_cons_of_mem _ h3
    push_neg at h2
    simp only [lookupStr]
    rw [if_neg (fun he => h2.1 he.symm)]
    exact ih h2.2

/-- C3: for every task descriptor with a well-formed input path (non-empty,
not ending in a slash), the derived output path is the input directory
joined with the input stem suffixed by _cleaned and the unchanged input
extension: it keeps the input's directory prefix, its file name is exactly
stem ++ _cleaned ++ suffix (and re-parsing the output gives back the same
suffix and the suffixed stem whenever the input has an extension), and it
is never equal to the input path. -/
theorem output_path_spec (t : AudioTask)
    (_h1 : t.input_path ≠ []) (_h2 : t.input_path.getLast? ≠ some '/') :
    output_path t.input_path
        = dirPre t.input_path ++ (stemOf t.input_path ++ cleanedTag ++ suffixOf t.input_path) ∧
    dirPre (output_path t.input_path) = dirPre t.input_path ∧
    nameOf (output_path t.input_path)
        = stemOf t.input_path ++ cleanedTag ++ suffixOf t.input_path ∧
    stemOf t.input_path ++ suffixOf t.input_path = nameOf t.input_path ∧
    (suffixOf t.input_path ≠ [] →
      suffixOf (output_path t.input_path) = suffixOf t.input_path ∧
      stemOf (output_path t.input_path) = stemOf t.input_path ++ cleanedTag) ∧
    output_path t.input_path ≠ t.input_path :=
  ⟨rfl, dirPre_output _, nameOf_output _, stem_append_suffix _,
   suffix_stem_output _, output_path_ne _⟩

/-- Witness for C3: on the scenario input lecture1.wav the output path is
lecture1_cleaned.wav, next to the source and different from it. -/
theorem output_path_spec_holds :
    output_path taskW.input_path = "lecture1_cleaned.wav".toList ∧
    output_path taskW.input_path ≠ taskW.input_path :=
  ⟨by decide, (output_path_spec taskW (by decide) (by decide)).2.2.2.2.2⟩

/-- C8: the derived output format maps each recognized lower-cased
extension of the fixed table to itself, and every extension outside the
table to wav. -/
theorem output_format_spec (p : Str) :
    (lowerStr (suffixOf p) = ".wav".toList → output_format p = "wav".toList) ∧
    (lowerStr (suffixOf p) = ".mp3".toList → output_format p = "mp3".toList) ∧
    (lowerStr (suffixOf p) = ".m4a".toList → output_format p = "m4a".toList) ∧
    (lowerStr (suffixOf p) = ".aac".toList → output_format p = "aac".toList) ∧
    (lowerStr (suffixOf p) = ".ogg".toList → output_format p = "ogg".toList) ∧
    (lowerStr (suffixOf p) = ".flac".toList → output_format p = "flac".toList) ∧
    (lowerStr (suffixOf p) ∉ keysOf format_map → output_format p = "wav".toList) := by
  refine ⟨?_, ?_, ?_, ?_, ?_, ?_, ?_⟩ <;> intro h
  · unfold output_format; rw [h]; decide
  · unfold output_format; rw [h]; decide
  · unfold output_format; rw [h]; decide
  · unfold output_format; rw [h]; decide
  · unfold output_format; rw [h]; decide
  · unfold output_format; rw [h]; decide
  · unfold output_format; rw [lookupStr_none _ _ h]

/-- Witness for C8: an upper-case mp3 extension maps to mp3 and an
unrecognized extension maps to wav. -/
theorem output_format_spec_holds :
    output_format ("talk.MP3".toList) = "mp3".toList ∧
    output_format ("notes.xyz".toList) = "wav".toList :=
  ⟨(output_format_spec ("talk.MP3".toList)).2.1 (by decide),
   (output_format_spec ("notes.xyz".toList)).2.2.2.2.2.2 (by decide)⟩

/-- C9: the default speech-enhancement stage is the identity transform: it
returns the input buffer unchanged, so the sample count is preserved (and
the sample rate is not touched at all). -/
theorem enhance_speech_identity (y : List ℚ) (sr : ℕ) :
    enhance_speech y sr = y ∧ (enhance_speech y sr).length = y.length :=
  ⟨rfl, rfl⟩

/-- C4: the noise-reduction stage hands noisereduce the first sr samples
of the signal as its noise reference clip — the whole signal when it is
shorter than one second, with length min sr (length of the signal) so no
out-of-bounds access occurs — together with a reduction strength of
exactly 0.5 for light, 0.7 for medium and 0.9 for strong, in stationary
mode with threshold 1.5. -/
theorem noise_reduction_spec (y : List ℚ) (sr : ℕ) (level : NoiseReductionLevel) :
    (noiseReduceArgs y sr level).y_noise = y.take sr ∧
    (noiseReduceArgs y sr level).y_noise.length = min sr y.length ∧
    (y.length ≤ sr → (noiseReduceArgs y sr level).y_noise = y) ∧
    (noiseReduceArgs y sr level).prop_decrease =
      (match level with
       | NoiseReductionLevel.light => 0.5
       | NoiseReductionLevel.medium => 0.7
       | NoiseReductionLevel.strong => 0.9) ∧
    (noiseReduceArgs y sr level).stationary = true ∧
    (noiseReduceArgs y sr level).n_std_thresh_stationary = 1.5 := by
  refine ⟨rfl, ?_, ?_, ?_, rfl, rfl⟩
  · show (y.take sr).length = min sr y.length
    simp
  · intro h
    show y.take sr = y
    exact List.take_of_length_le h
  · cases level <;> rfl

/-- Witness for C4: a two-sample signal at a nominal rate of five samples
per second uses the entire signal as the reference and strength 0.7 at the
medium level. -/
theorem noise_reduction_spec_holds :
    (noiseReduceArgs [1, 2] 5 NoiseReductionLevel.medium).y_noise = [1, 2] ∧
    (noiseReduceArgs [1, 2] 5 NoiseReductionLevel.medium).prop_decrease = 0.7 :=
  ⟨(noise_reduction_spec [1, 2] 5 NoiseReductionLevel.medium).2.2.1 (by decide),
   (noise_reduction_spec [1, 2] 5 NoiseReductionLevel.medium).2.2.2.1⟩

theorem process_audio_cases (t : AudioTask) (env : PipelineEnv) :
    process_audio t env = ⟨false, [10], [], []⟩ ∨
    process_audio t env = ⟨false, [10, 30], [], []⟩ ∨
    process_audio t env
      = ⟨false, (if t.enable_speech_enhancement then [10, 30, 60, 80] else [10, 30, 80]),
         [], [output_path t.input_path]⟩ ∨
    process_audio t env
      = ⟨true, (if t.enable_speech_enhancement then [10, 30, 60, 80, 100] else [10, 30, 80, 100]),
         [output_path t.input_path], []⟩ := by
  unfold process_audio
  rcases hl : env.loadRes with e | ⟨y, sr⟩
  · simp only [hl]
    exact Or.inl trivial
  · simp only [hl]
    rcases hr : env.reduce (noiseReduceArgs y sr t.noise_reduction_level) with e | yClean
    · simp only [hr]
      exact Or.inr (Or.inl trivial)
    · simp only [hr]
      cases he : t.enable_speech_enhancement
      · rcases hw : env.write (encodeCallOf t yClean sr) with e | u
        · simp only [hw]
          exact Or.inr (Or.inr (Or.inl rfl))
        · simp only [hw]
          exact Or.inr (Or.inr (Or.inr rfl))
      · rcases hw : env.write (encodeCallOf t (enhance_speech yClean sr) sr) with e | u
        · simp only [hw]
          exact Or.inr (Or.inr (Or.inl rfl))
        · simp only [hw]
          exact Or.inr (Or.inr (Or.inr rfl))

theorem process_audio_success_events (t : AudioTask) (env : PipelineEnv)
    (h : (process_audio t env).ok = true) :
    (process_audio t env).events
      = (if t.enable_speech_enhancement then [10, 30, 60, 80, 100] else [10, 30, 80, 100]) := by
  rcases process_audio_cases t env with hc | hc | hc | hc <;> rw [hc] at h ⊢ <;> simp at h

theorem someStageRaised_eq (t : AudioTask) (env : PipelineEnv) :
    someStageRaised t env = !(process_audio t env).ok := by
  unfold process_audio someStageRaised
  rcases hl : env.loadRes with e | ⟨y, sr⟩
  · simp [hl]
  · simp only [hl]
    rcases hr : env.reduce (noiseReduceArgs y sr t.noise_reduction_level) with e | yClean
    · simp [hr]
    · simp only [hr]
      cases he : t.enable_speech_enhancement
      · rcases hw : env.write (encodeCallOf t yClean sr) with e | u
        · simp [hw]
        · simp [hw]
      · rcases hw : env.write (encodeCallOf t (enhance_speech yClean sr) sr) with e | u
        · simp [hw]
        · simp [hw]

theorem process_audio_fail_no_100 (t : AudioTask) (env : PipelineEnv)
    (h : (process_audio t env).ok = false) : 100 ∉ (process_audio t env).events := by
  rcases process_audio_cases t env with hc | hc | hc | hc <;> rw [hc] at h ⊢
  · simp
  · simp
  · cases he : t.enable_speech_enhancement <;> simp
  · simp at h

/-- C1: on every run of process_audio that completes successfully, the
values passed to the progress callback are exactly the checkpoint sequence
10, 30, (60 only when speech enhancement is enabled), 80, 100: a strictly
increasing sequence of integers bounded by 100 ending at exactly 100,
emitted only at stage checkpoints; with enhancement disabled the observed
sequence is a subsequence of 10, 30, 80, 100. -/
theorem progress_on_success (t : AudioTask) (env : PipelineEnv)
    (h : (process_audio t env).ok = true) :
    (process_audio t env).events
        = (if t.enable_speech_enhancement then [10, 30, 60, 80, 100] else [10, 30, 80, 100]) ∧
    List.Chain' (fun a b => a < b) (process_audio t env).events ∧
    (process_audio t env).events.getLast? = some 100 ∧
    (∀ x ∈ (process_audio t env).events, x ≤ 100) ∧
    (t.enable_speech_enhancement = false →
      List.Sublist (process_audio t env).events [10, 30, 80, 100]) := by
  have hev := process_audio_success_events t env h
  refine ⟨hev, ?_, ?_, ?_, ?_⟩
  · cases he : t.enable_speech_enhancement <;> rw [he] at hev <;> simp at hev <;>
      rw [hev] <;> simp [List.chain'_cons]
  · cases he : t.enable_speech_enhancement <;> rw [he] at hev <;> simp at hev <;>
      rw [hev] <;> decide
  · cases he : t.enable_speech_enhancement <;> rw [he] at hev <;> simp at hev <;>
      rw [hev] <;> decide
  · intro hb
    rw [hb] at hev
    simp at hev
    rw [hev]

/-- Witness for C1: on the scenario task (enhancement disabled) with every
stage succeeding, the observed progress sequence is 10, 30, 80, 100,
ending at 100. -/
theorem progress_on_success_holds :
    (process_audio taskW envOk).events = [10, 30, 80, 100] ∧
    (process_audio taskW envOk).events.getLast? = some 100 :=
  ⟨by decide, (progress_on_success taskW envOk (by decide)).2.2.1⟩

/-- C10: process_audio never propagates a stage exception: it returns
false exactly when one of the fallible stage operations raised and true
only when all stages completed, and the 100 checkpoint is emitted on
successful runs only, never on a failed run. -/
theorem process_audio_total (t : AudioTask) (env : PipelineEnv) :
    ((process_audio t env).ok = true ↔ someStageRaised t env = false) ∧
    ((process_audio t env).ok = false → 100 ∉ (process_audio t env).events) ∧
    ((process_audio t env).ok = true → (process_audio t env).events.getLast? = some 100) := by
  refine ⟨?_, process_audio_fail_no_100 t env, ?_⟩
  · rw [someStageRaised_eq]
    cases hb : (process_audio t env).ok <;> simp
  · intro h
    have hev := process_audio_success_events t env h
    cases he : t.enable_speech_enhancement <;> rw [he] at hev <;> simp at hev <;>
      rw [hev] <;> decide

/-- Witness for C10: when loading fails, process_audio returns false
rather than raising, and the 100 checkpoint is never emitted. -/
theorem process_audio_total_holds :
    (process_audio taskW envLoadFail).ok = false ∧
    100 ∉ (process_audio taskW envLoadFail).events :=
  ⟨by decide, (process_audio_total taskW envLoadFail).2.1 (by decide)⟩

/-- C2 counterexample: on the lecture1.wav task with every stage
succeeding, a cancellation requested while the task is running does not
stop the pipeline: all stage checkpoints still fire and the newly written
file is left at the output location, even though the terminal event
reports the run as cancelled. -/
theorem cancellation_leaves_file :
    (threadRun taskW envOk true).2 = (false, "Task cancelled") ∧
    (threadRun taskW envOk true).1.events = [10, 30, 80, 100] ∧
    (threadRun taskW envOk true).1.writes ≠ [] := by
  decide

/-- C2 (amended): the cancellation flag is checked exactly once, after
process_audio has already run to completion; when stop was requested
before that check the terminal event is (false, Task cancelled) and never
the success event, but every pipeline stage has already executed — the run
observed is the full uncancelled run — and a successful pipeline still
leaves the newly written file at the derived output location. -/
theorem cancellation_observed_late (t : AudioTask) (env : PipelineEnv) :
    (threadRun t env true).2 = (false, "Task cancelled") ∧
    (threadRun t env true).2 ≠ (true, "Processing completed successfully") ∧
    (threadRun t env true).1 = process_audio t env ∧
    ((process_audio t env).ok = true →
      (threadRun t env true).1.writes = [output_path t.input_path]) := by
  refine ⟨rfl, ?_, rfl, ?_⟩
  · intro h
    simp [threadRun] at h
  · intro h
    show (process_audio t env).writes = [output_path t.input_path]
    rcases process_audio_cases t env with hc | hc | hc | hc <;> rw [hc] at h ⊢ <;> simp at h

/-- Witness for C2 (amended): with enhancement enabled and all stages
succeeding, a cancelled run still reports the cancelled terminal event
while the output file has been written. -/
theorem cancellation_observed_late_holds :
    (threadRun taskEnh envOk true).2 = (false, "Task cancelled") ∧
    (threadRun taskEnh envOk true).1.writes = [output_path taskEnh.input_path] :=
  ⟨(cancellation_observed_late taskEnh envOk).1,
   (cancellation_observed_late taskEnh envOk).2.2.2 (by decide)⟩

/-- C5 counterexample: adding a second task whose derived name a is
already registered (same input a.wav, different noise level) does not
fail with a duplicate-name error and does not leave the registry
unchanged: the dict assignment silently replaces the stored task. -/
theorem add_task_overwrites :
    add_task tasksDup "a.wav".toList NoiseReductionLevel.strong true
        SpeechEnhancementLevel.medium true BackgroundNoiseLevel.moderate
      ≠ tasksDup ∧
    add_task tasksDup "a.wav".toList NoiseReductionLevel.strong true
        SpeechEnhancementLevel.medium true BackgroundNoiseLevel.moderate
      = [(taskAStrong.name, taskAStrong)] := by
  decide

theorem lookupStr_dictInsert {α : Type} (k : Str) (v : α) (m : List (Str × α)) :
    lookupStr k (dictInsert k v m) = some v := by
  induction m with
  | nil => simp [dictInsert, lookupStr]
  | cons kv rest ih =>
    obtain ⟨k', v'⟩ := kv
    by_cases hk : k' = k
    · simp [dictInsert, hk, lookupStr]
    · simp [dictInsert, hk, lookupStr, ih]

theorem lookupStr_dictInsert_ne {α : Type} (k k2 : Str) (v : α) (m : List (Str × α))
    (hne : k2 ≠ k) : lookupStr k2 (dictInsert k v m) = lookupStr k2 m := by
  have hkk : ¬ k = k2 := fun h => hne h.symm
  induction m with
  | nil => simp [dictInsert, lookupStr, hkk]
  | cons kv rest ih =>
    obtain ⟨k', v'⟩ := kv
    by_cases hk : k' = k
    · subst hk
      simp [dictInsert, lookupStr, hkk]
    · simp [dictInsert, hk, lookupStr, ih]

theorem keysOf_dictInsert {α : Type} (k : Str) (v : α) (m : List (Str × α)) :
    keysOf (dictInsert k v m) = (if k ∈ keysOf m then keysOf m else keysOf m ++ [k]) := by
  induction m with
  | nil =>
    have h0 : ¬ k ∈ keysOf ([] : List (Str × α)) := List.not_mem_nil k
    rw [if_neg h0]
    rfl
  | cons kv rest ih =>
    obtain ⟨k', v'⟩ := kv
    by_cases hk : k' = k
    · subst hk
      have h1 : dictInsert k' v ((k', v') :: rest) = (k', v) :: rest := by
        show (if k' = k' then (k', v) :: rest else (k', v') :: dictInsert k' v rest)
            = (k', v) :: rest
        rw [if_pos rfl]
      rw [h1]
      have h2 : k' ∈ keysOf ((k', v') :: rest) := List.mem_cons_self _ _
      rw [if_pos h2]
      rfl
    · have h1 : dictInsert k v ((k', v') :: rest) = (k', v') :: dictInsert k v rest := by
        show (if k' = k then (k, v) :: rest else (k', v') :: dictInsert k v rest)
            = (k', v') :: dictInsert k v rest
        rw [if_neg hk]
      have hkk : k ≠ k' := fun h => hk h.symm
      have h3 : keysOf ((k', v') :: dictInsert k v rest) = k' :: keysOf (dictInsert k v rest) := rfl
      rw [h1, h3, ih]
      by_cases hm : k ∈ keysOf rest
      · have hm2 : k ∈ keysOf ((k', v') :: rest) := List.mem_cons_of_mem _ hm
        rw [if_pos hm, if_pos hm2]
        rfl
      · have hm2 : ¬ k ∈ keysOf ((k', v') :: rest) := by
          intro hx
          rcases List.mem_cons.mp hx with h | h
          · exact hkk h
          · exact hm h
        rw [if_neg hm, if_neg hm2]
        rfl

/-- C5 (amended): adding a task never fails on a duplicate name: when the
derived name is already registered the dict assignment replaces that
entry in place, leaving the key list unchanged; otherwise a fresh entry
is appended.  In both cases the new descriptor is afterwards stored under
its name and every other registered name keeps its old entry. -/
theorem add_task_spec (tasks : List (Str × AudioTask)) (inp : Str)
    (nr : NoiseReductionLevel) (enh : Bool) (sel : SpeechEnhancementLevel)
    (vcb : Bool) (bnl : BackgroundNoiseLevel) (hinp : inp ≠ []) :
    lookupStr (mkTask inp nr enh sel vcb bnl).name (add_task tasks inp nr enh sel vcb bnl)
      = some (mkTask inp nr enh sel vcb bnl) ∧
    keysOf (add_task tasks inp nr enh sel vcb bnl)
      = (if (mkTask inp nr enh sel vcb bnl).name ∈ keysOf tasks
         then keysOf tasks
         else keysOf tasks ++ [(mkTask inp nr enh sel vcb bnl).name]) ∧
    (∀ k, k ≠ (mkTask inp nr enh sel vcb bnl).name →
      lookupStr k (add_task tasks inp nr enh sel vcb bnl) = lookupStr k tasks) := by
  unfold add_task
  rw [if_neg hinp]
  exact ⟨lookupStr_dictInsert _ _ _, keysOf_dictInsert _ _ _,
    fun k hk => lookupStr_dictInsert_ne _ _ _ _ hk⟩

/-- Witness for C5 (amended): re-adding the a.wav task with a different
level stores the new descriptor under the name a and leaves the key list
of the registry unchanged. -/
theorem add_task_spec_holds :
    lookupStr taskAStrong.name
        (add_task tasksDup "a.wav".toList NoiseReductionLevel.strong true
          SpeechEnhancementLevel.medium true BackgroundNoiseLevel.moderate)
      = some taskAStrong ∧
    keysOf (add_task tasksDup "a.wav".toList NoiseReductionLevel.strong true
          SpeechEnhancementLevel.medium true BackgroundNoiseLevel.moderate)
      = keysOf tasksDup :=
  ⟨(add_task_spec tasksDup "a.wav".toList NoiseReductionLevel.strong true
      SpeechEnhancementLevel.medium true BackgroundNoiseLevel.moderate (by decide)).1,
   ((add_task_spec tasksDup "a.wav".toList NoiseReductionLevel.strong true
      SpeechEnhancementLevel.medium true BackgroundNoiseLevel.moderate (by decide)).2.1).trans
     (by decide)⟩

/-- C6 counterexample: on the lecture1.wav task with a failing write, the
failed encode stage records the output location itself as the possibly
partially-written path, and the save-stage filesystem trace contains no
rename: the write goes directly to the final path, so nothing guarantees
the output appears atomically. -/
theorem encode_not_atomic :
    (process_audio taskW envWriteFail).ok = false ∧
    (process_audio taskW envWriteFail).partialAt = [output_path taskW.input_path] ∧
    encodeOps taskW = [FsOp.writeFile (output_path taskW.input_path)] ∧
    hasRename (encodeOps taskW) = false := by
  decide

/-- C6 (amended): for every task the save stage performs a single direct
write to the derived output location, with no temporary file and no
rename; consequently any run that records a possibly partially-written
path records exactly the output location itself. -/
theorem encode_direct_write (t : AudioTask) (env : PipelineEnv) :
    encodeOps t = [FsOp.writeFile (output_path t.input_path)] ∧
    hasRename (encodeOps t) = false ∧
    ((process_audio t env).partialAt ≠ [] →
      (process_audio t env).partialAt = [output_path t.input_path]) := by
  refine ⟨?_, ?_, ?_⟩
  · unfold encodeOps
    cases encodeRoute (output_format t.input_path) <;> rfl
  · unfold hasRename encodeOps
    cases encodeRoute (output_format t.input_path) <;> rfl
  · intro h
    rcases process_audio_cases t env with hc | hc | hc | hc <;> rw [hc] at h ⊢ <;>
      exact absurd rfl h

/-- Witness for C6 (amended): with enhancement enabled and the write
failing, the possibly partially-written path recorded is the output
location. -/
theorem encode_direct_write_holds :
    (process_audio taskEnh envWriteFail).partialAt = [output_path taskEnh.input_path] :=
  (encode_direct_write taskEnh envWriteFail).2.2 (by decide)

/-- C7 counterexample: m4a is one of the lossy target containers, yet the
save stage routes it to the direct raw writer instead of the lossless
in-memory intermediate used for mp3. -/
theorem lossy_not_transcoded :
    "m4a".toList ∈ lossyFormats ∧
    encodeRoute ("m4a".toList) = EncodeRoute.rawWrite := by
  decide

/-- C7 (amended): only the mp3 target goes through the lossless in-memory
intermediate and transcode; every other format string — including the
lossy m4a, aac and ogg containers — is written directly by the raw
writer. -/
theorem encode_route_spec (fmt : Str) :
    encodeRoute fmt = EncodeRoute.losslessIntermediate ↔ lowerStr fmt = "mp3".toList := by
  unfold encodeRoute
  by_cases h : lowerStr fmt = "mp3".toList
  · simp [h]
  · simp [h]

/-- Witness for C7 (amended): the mp3 format is routed through the
lossless intermediate. -/
theorem encode_route_spec_holds :
    encodeRoute ("mp3".toList) = EncodeRoute.losslessIntermediate :=
  (encode_route_spec ("mp3".toList)).mpr (by decide)
